import Mathlib

namespace MagiskBuild

/-- Abstract syntax of the regular-expression dialect used by the variant
catalog branch patterns, as interpreted by Python `re.match`.  A leading
caret is a no-op under `re.match` (matching is already anchored at the start
of the string), so it has no constructor; `dollar` models `$` as matching
only at the end of the input. `anychar` models `.`, which does not match a
newline; `cls` models a character class, negated when the flag is true. -/
inductive Regex where
  | emptystr : Regex
  | char : Char → Regex
  | anychar : Regex
  | cls : Bool → List Char → Regex
  | concat : Regex → Regex → Regex
  | alt : Regex → Regex → Regex
  | star : Regex → Regex
  | dollar : Regex
deriving DecidableEq

/-- A lexicographic step for the termination measure of the matcher. -/
def lex_of_le_of_lt {a b c d : Nat} (h1 : a ≤ b) (h2 : c < d) :
    Prod.Lex (· < ·) (· < ·) (a, c) (b, d) := by
  rcases Nat.lt_or_eq_of_le h1 with hlt | heq
  · exact Prod.Lex.left _ _ hlt
  · rw [heq]
    exact Prod.Lex.right _ h2

/-- All suffixes of `s` that remain after the regex consumes some initial
segment of `s`; each is packaged with a proof that it is no longer than `s`
(used for termination).  Nullable iterations of `star` are cut off: they
consume nothing, so they cannot contribute a new remaining suffix. -/
def matchRest : (r : Regex) → (s : List Char) → List { t : List Char // t.length ≤ s.length }
  | .emptystr, s => [⟨s, Nat.le_refl _⟩]
  | .char _, [] => []
  | .char c, a :: s => if a = c then [⟨s, Nat.le_succ _⟩] else []
  | .anychar, [] => []
  | .anychar, a :: s => if a = '\n' then [] else [⟨s, Nat.le_succ _⟩]
  | .cls _ _, [] => []
  | .cls neg cs, a :: s => if (cs.contains a) != neg then [⟨s, Nat.le_succ _⟩] else []
  | .dollar, [] => [⟨[], Nat.le_refl _⟩]
  | .dollar, _ :: _ => []
  | .concat r1 r2, s =>
      (matchRest r1 s).flatMap (fun t1 =>
        (matchRest r2 t1.val).map (fun t2 => ⟨t2.val, Nat.le_trans t2.property t1.property⟩))
  | .alt r1 r2, s => matchRest r1 s ++ matchRest r2 s
  | .star r, s =>
      ⟨s, Nat.le_refl _⟩ :: (matchRest r s).flatMap (fun t1 =>
        if h : t1.val.length < s.length then
          (matchRest (.star r) t1.val).map
            (fun t2 => ⟨t2.val, Nat.le_trans t2.property (Nat.le_of_lt h)⟩)
        else [])
termination_by r s => (s.length, sizeOf r)
decreasing_by
  all_goals first
    | exact Prod.Lex.left _ _ h
    | exact lex_of_le_of_lt (Nat.le_refl _) (by simp; try omega)
    | exact lex_of_le_of_lt t1.property (by simp; try omega)

def matchRests (r : Regex) (s : List Char) : List (List Char) :=
  (matchRest r s).map Subtype.val

/-- Model of the truthiness of Python re.match: does some initial
segment of s match the pattern? -/
def rmatch (r : Regex) (s : List Char) : Bool :=
  !(matchRests r s).isEmpty

/-- Declarative semantics: `MatchSplit r a b` means the regex `r` matches
exactly the string `a` when the rest of the input after `a` is `b` (the
rest is needed because `$` constrains the end of the whole input). -/
inductive MatchSplit : Regex → List Char → List Char → Prop where
  | emptystr (rest : List Char) : MatchSplit .emptystr [] rest
  | char (c : Char) (rest : List Char) : MatchSplit (.char c) [c] rest
  | anychar (c : Char) (rest : List Char) : c ≠ '\n' → MatchSplit .anychar [c] rest
  | cls (neg : Bool) (cs : List Char) (c : Char) (rest : List Char) :
      (cs.contains c != neg) = true → MatchSplit (.cls neg cs) [c] rest
  | dollar : MatchSplit .dollar [] []
  | concat (r1 r2 : Regex) (a b rest : List Char) :
      MatchSplit r1 a (b ++ rest) → MatchSplit r2 b rest →
      MatchSplit (.concat r1 r2) (a ++ b) rest
  | altl (r1 r2 : Regex) (a rest : List Char) :
      MatchSplit r1 a rest → MatchSplit (.alt r1 r2) a rest
  | altr (r1 r2 : Regex) (a rest : List Char) :
      MatchSplit r2 a rest → MatchSplit (.alt r1 r2) a rest
  | star_nil (r : Regex) (rest : List Char) : MatchSplit (.star r) [] rest
  | star_cons (r : Regex) (a b rest : List Char) :
      MatchSplit r a (b ++ rest) → MatchSplit (.star r) b rest →
      MatchSplit (.star r) (a ++ b) rest

/-- Property `PrefixMatch r s` is the property the spec attributes to variant
selection: the pattern matches some initial segment of `s` (prefix match,
not full match). -/
def PrefixMatch (r : Regex) (s : List Char) : Prop :=
  ∃ a b, s = a ++ b ∧ MatchSplit r a b

/-- A variant record from `variants.json`.  The `branch_pattern` is kept in
compiled form (the regex AST); the source field `variant` names the
buildable unit, called `module_id` by the spec. -/
structure Variant where
  name : String
  variant : String
  flavor : Option String
  branch_pattern : Regex
  output_file : String
  sign_keys : List String

/-- The set of variants the main loop retains: those whose branch pattern
matches the branch via `re.match` (all others hit `continue`). -/
def selectVariants (variants : List Variant) (branch : List Char) : List Variant :=
  variants.filter (fun v => rmatch v.branch_pattern branch)

/-- The regex denoting a literal string (each char in sequence). -/
def strRegex : List Char → Regex
  | [] => .emptystr
  | c :: cs => .concat (.char c) (strRegex cs)

/-- Python `sep.join(parts)`. -/
def pyJoin (sep : String) : List String → String
  | [] => ""
  | [x] => x
  | x :: y :: xs => x ++ sep ++ pyJoin sep (y :: xs)

/-- Concatenation of a list of strings, Python `"".join(parts)`. -/
def concatAll : List String → String
  | [] => ""
  | x :: xs => x ++ concatAll xs

/-- Index of the last occurrence of `c` in `l`, Python `str.rfind`. -/
def lastIndexOf (c : Char) (l : List Char) : Option Nat :=
  ((List.range l.length).filter (fun i => l[i]? == some c)).getLast?

/-- The stem of a final path component under `pathlib` rules: the suffix
starts at the last dot, provided that dot is neither the first nor the
last character of the name. -/
def stemChars (name : List Char) : List Char :=
  match lastIndexOf '.' name with
  | some i => if 0 < i ∧ i + 1 < name.length then name.take i else name
  | none => name

/-- Python `PurePath(p).with_suffix(".txt")`: replace the extension of the
final path component by `.txt`. -/
def withSuffixTxt (p : String) : String :=
  let cs := p.data
  let dirLen := match lastIndexOf '/' cs with
    | some i => i + 1
    | none => 0
  String.mk (cs.take dirLen ++ stemChars (cs.drop dirLen) ++ ".txt".data)

/-- The per-key portion of `AndroidSigner.build_args`: `enumerate` index
`i`, emitting a `--next-signer` marker before every key except the first. -/
def build_args_keys (base : String) : Nat → List String → List String
  | _, [] => []
  | i, k :: ks =>
      (if i > 0 then ["--next-signer"] else [])
        ++ ("--ks=" ++ (base ++ "/" ++ k))
        :: ("--ks-pass=file:" ++ withSuffixTxt (base ++ "/" ++ k))
        :: build_args_keys base (i + 1) ks

/-- Model of `AndroidSigner.build_args`: fixed signing-scheme flags followed by the
keystore chain. -/
def build_args (base : String) (sign_keys : List String) : List String :=
  ["--v1-signing-enabled=true", "--v2-signing-enabled=true",
   "--v3-signing-enabled=false", "--v4-signing-enabled=false"]
    ++ build_args_keys base 0 sign_keys

/-- Model of `Project.build_type`: selected by the `BUILD_RELEASE` environment toggle. -/
def buildTypeName (release : Bool) : String := if release then "release" else "debug"

/-- The build-output filename convention of `Project.get_output_path`:
dash-join of the non-absent parts. -/
def get_output_filename (app_name : String) (flavor : Option String) (release : Bool) : String :=
  pyJoin "-" (([some app_name, flavor, some (buildTypeName release),
    if release then some "unsigned" else none] : List (Option String)).filterMap id)

/-- Model of `Project.get_output_path` over the recursive directory listing
`available` (filenames in traversal order): the first file named by the
convention, and `none` when nothing matches (the Python code has
`next(..., None)`). -/
def get_output_path (available : List String) (app_name : String) (flavor : Option String)
    (release : Bool) : Option String :=
  available.find? (fun f => f == get_output_filename app_name flavor release ++ ".apk")

/-- Failure raised by a `check_call` in `AndroidSigner.__call__`, carrying
the subcommand and its exit code. -/
inductive SignerError where
  | signFailed (code : Int) : SignerError
  | verifyFailed (code : Int) : SignerError
deriving DecidableEq

/-- Python `subprocess.check_call`: raises `CalledProcessError` on any
nonzero exit status. -/
def check_call (mk : Int → SignerError) (exitCode : Int) : Except SignerError Unit :=
  if exitCode = 0 then .ok () else .error (mk exitCode)

/-- Model of `AndroidSigner.__call__`: run the sign step, then the certificate
verification step, each through `check_call`; the exit codes of the two
external invocations are inputs of the model. -/
def androidSignerCall (signExit verifyExit : Int) : Except SignerError Unit :=
  match check_call .signFailed signExit with
  | .ok _ => check_call .verifyFailed verifyExit
  | .error e => .error e

/-- The package identity extracted by `get_version_info` from the badging
dump of the built binary. -/
structure VersionInfo where
  version_code : Int
  version_name : String
  package_name : String
deriving DecidableEq

/-- The apostrophe character delimiting values in the badging dump. -/
def quoteChar : Char := '\''

/-- One attempt of the search pattern at the current position: succeeds when
`key` starts here, followed by a nonempty run of non-quote characters and a
closing quote; the captured group is that run. -/
def captureAt (key s : List Char) : Option (List Char) :=
  if key.isPrefixOf s then
    let rest := s.drop key.length
    let cap := rest.takeWhile (fun c => c != quoteChar)
    if cap.isEmpty || cap.length == rest.length then none else some cap
  else none

/-- Python `re.search` for the pattern that matches `key`, then a nonempty
run of non-quote characters as the captured group, then a closing quote:
try every start position left to right and return the first capture. -/
def searchKey (key : List Char) : List Char → Option (List Char)
  | [] => captureAt key []
  | c :: rest =>
    match captureAt key (c :: rest) with
    | some cap => some cap
    | none => searchKey key rest

/-- All-digit parse of a nonempty character run, the core of Python
`int()`. -/
def parseDigits (l : List Char) : Option Nat :=
  if l ≠ [] ∧ l.all (fun c => c.isDigit) then
    some (l.foldl (fun a c => a * 10 + (c.toNat - 48)) 0)
  else none

/-- Python `int()` on the captured text, modelled for an optional sign
followed by decimal digits. -/
def parseInt (l : List Char) : Option Int :=
  match l with
  | '-' :: rest => (parseDigits rest).map (fun n => -(n : Int))
  | '+' :: rest => (parseDigits rest).map (fun n => (n : Int))
  | _ => (parseDigits l).map (fun n => (n : Int))

def nameKey : List Char := "name=".data ++ [quoteChar]

def versionNameKey : List Char := "versionName=".data ++ [quoteChar]

def versionCodeKey : List Char := "versionCode=".data ++ [quoteChar]

/-- Model of `get_version_info`: three independent regex searches over the badging
dump; `.group(...)` on a failed search raises, so a missing field makes the
whole probe fail (`none`), never a half-filled record. -/
def get_version_info (output : List Char) : Option VersionInfo :=
  match searchKey nameKey output, searchKey versionNameKey output,
      searchKey versionCodeKey output with
  | some pn, some vn, some vc =>
      (parseInt vc).map (fun n => ⟨n, String.mk vn, String.mk pn⟩)
  | _, _, _ => none

/-- A representative badging dump containing all three fields. -/
def demoDump : List Char :=
  "package: name=".data ++ [quoteChar] ++ "im.angry.openeuicc".data ++ [quoteChar]
    ++ " versionCode=".data ++ [quoteChar] ++ "123".data ++ [quoteChar]
    ++ " versionName=".data ++ [quoteChar] ++ "1.0".data ++ [quoteChar]

/-- Decimal digit character. -/
def digitChar (n : Nat) : Char := Char.ofNat (48 + n)

/-- Fuel-driven decimal rendering; `natStr` supplies ample fuel. -/
def natDigitsCore : Nat → Nat → List Char → List Char
  | 0, _, acc => acc
  | fuel + 1, n, acc =>
    if n < 10 then digitChar n :: acc
    else natDigitsCore fuel (n / 10) (digitChar (n % 10) :: acc)

/-- Python `str` on a natural number. -/
def natStr (n : Nat) : String := String.mk (natDigitsCore (n + 1) n [])

/-- Python `str` on an `int`. -/
def intStr (i : Int) : String :=
  if i < 0 then "-" ++ natStr i.natAbs else natStr i.toNat

/-- The static description line of `module.prop`, `" ".join(...)` in the
source. -/
def moduleDescription : String :=
  pyJoin " "
    ["OpenEUICC provides system-level eSIM integration.",
     "Source Code: https://gitea.angry.im/PeterCxy/OpenEUICC.",
     "Magisk Module: https://github.com/sekaiacg/magisk-openeuicc."]

/-- The insertion-ordered key/value pairs of the `module` dict in
`build_module_prop`. -/
def modulePropPairs (vi : VersionInfo) : List (String × String) :=
  [("id", "openeuicc-sekaiacg"),
   ("name", "OpenEUICC"),
   ("version", vi.version_name),
   ("versionCode", intStr vi.version_code),
   ("author", "Peter Cai, Modifier by @sekaiacg"),
   ("description", moduleDescription)]

/-- Model of `build_module_prop`: one `key=value` line per dict entry, each
newline-terminated. -/
def build_module_prop (vi : VersionInfo) : String :=
  concatAll ((modulePropPairs vi).map (fun p => p.1 ++ "=" ++ p.2 ++ "\n"))

/-- Python `str.split` on a newline: the list of lines, with a final empty
piece when the text ends in a newline. -/
def linesOf : List Char → List (List Char)
  | [] => [[]]
  | '\n' :: t => [] :: linesOf t
  | c :: t =>
    match linesOf t with
    | [] => [[c]]
    | l :: ls => (c :: l) :: ls

/-- The six lines of `module.prop` (without their terminating newlines). -/
def modulePropLinesData (vi : VersionInfo) : List (List Char) :=
  ["id=openeuicc-sekaiacg".data, "name=OpenEUICC".data,
   "version=".data ++ vi.version_name.data,
   "versionCode=".data ++ (intStr vi.version_code).data,
   "author=Peter Cai, Modifier by @sekaiacg".data,
   "description=".data ++ moduleDescription.data]

/-- Quote one argument under the rules of Python
`subprocess.list2cmdline`: backslashes are buffered and doubled before a
double quote; a quote is escaped; arguments holding whitespace (or empty)
are wrapped in double quotes with trailing backslashes doubled. -/
def cmdlineQuoteChars (needquote : Bool) : List Char → Nat → List Char
  | [], bs =>
    List.replicate bs '\\'
      ++ (if needquote then List.replicate bs '\\' ++ ['"'] else [])
  | '\\' :: t, bs => cmdlineQuoteChars needquote t (bs + 1)
  | '"' :: t, bs =>
    List.replicate (2 * bs) '\\' ++ '\\' :: '"' :: cmdlineQuoteChars needquote t 0
  | c :: t, bs => List.replicate bs '\\' ++ c :: cmdlineQuoteChars needquote t 0

def cmdlineQuoteArg (arg : String) : String :=
  let needquote := arg.data.contains ' ' || arg.data.contains '\t' || arg.data.isEmpty
  String.mk ((if needquote then ['"'] else []) ++ cmdlineQuoteChars needquote arg.data 0)

/-- Python `subprocess.list2cmdline`: arguments quoted and joined by
spaces. -/
def list2cmdline (args : List String) : String :=
  pyJoin " " (args.map cmdlineQuoteArg)

/-- Replace every occurrence of `key` in the text by `val`, resuming after
the replacement; the semantics of one named placeholder under
`str.format`. -/
def replaceKey (key val : List Char) : List Char → List Char
  | [] => []
  | c :: rest =>
    if h : key ≠ [] ∧ key.isPrefixOf (c :: rest) then
      val ++ replaceKey key val ((c :: rest).drop key.length)
    else
      c :: replaceKey key val rest
termination_by l => l.length
decreasing_by
  · have hk : 0 < key.length := List.length_pos.mpr h.1
    simp [List.length_drop]
    omega
  · simp

/-- Instantiation of the `customize.sh` template,
`template.format(PKG_NAME=…, APK_PATH=…, APK_NAME=…)`. -/
def formatCustomize (template pkg apkPath apkName : String) : String :=
  String.mk
    (replaceKey "{APK_NAME}".data apkName.data
      (replaceKey "{APK_PATH}".data apkPath.data
        (replaceKey "{PKG_NAME}".data pkg.data template.data)))

/-- Payload of one zip entry: raw bytes or text (encoded on write). -/
inductive EntryData where
  | binary : List Nat → EntryData
  | text : String → EntryData
deriving DecidableEq

/-- Compression mode of one entry: `ZIP_DEFLATED` (the archive default)
or `ZIP_STORED`. -/
inductive CompressMode where
  | deflated : CompressMode
  | stored : CompressMode
deriving DecidableEq

/-- One archive entry as written by `ZipFile.writestr` when called with a
path string: the entry timestamp `dt` is the current local time at the
moment of the write. -/
structure ZipEntry where
  path : String
  data : EntryData
  mode : CompressMode
  dt : Nat
deriving DecidableEq

/-- Archive-internal path of the embedded binary. -/
def appPath : String := "system/system_ext/priv-app/OpenEUICC/OpenEUICC.apk"

/-- Archive-internal path of the permissions manifest for `pkg`. -/
def permsPath (pkg : String) : String :=
  "system/system_ext/etc/permissions/privapp_whitelist_" ++ pkg ++ ".xml"

/-- Model of `build_magisk_module`, as the sequence of entries written into the
fresh archive: inputs are the fetched installer script bytes, the signed
binary bytes, the permissions manifest bytes, the `customize.sh` template
text, the probed version info, and the wall-clock time `now` stamped on
every entry by `writestr`. -/
def build_magisk_module (now : Nat) (installer apk whitelist : List Nat)
    (customize_template : String) (vi : VersionInfo) : List ZipEntry :=
  [⟨"META-INF/com/google/android" ++ "/update-binary", .binary installer, .deflated, now⟩,
   ⟨"META-INF/com/google/android" ++ "/updater-script", .text "#MAGISK\n", .stored, now⟩,
   ⟨appPath, .binary apk, .stored, now⟩,
   ⟨permsPath vi.package_name, .binary whitelist, .deflated, now⟩,
   ⟨"customize.sh",
     .text (formatCustomize customize_template vi.package_name appPath "OpenEUICC.apk"),
     .deflated, now⟩,
   ⟨"uninstall.sh", .text (list2cmdline ["pm", "uninstall", vi.package_name]),
     .deflated, now⟩,
   ⟨"module.prop", .text (build_module_prop vi), .deflated, now⟩]

/-- The timestamp-independent content of an entry. -/
def entryContent (e : ZipEntry) : String × EntryData × CompressMode := (e.path, e.data, e.mode)

/-- Filesystem- and process-level effects of `main`, in program order. -/
inductive Action where
  | gradleClean : Action
  | gradleBuild (variant : String) (flavor : Option String) : Action
  | copyArtifact (dst : String) : Action
  | signArtifact (path : String) (keys : List String) : Action
  | unlink (path : String) : Action
  | writeModule (path : String) : Action
deriving DecidableEq

/-- Destination of the module archive, `ARTIFACT_PATH / "magisk-module.zip"`. -/
def modulePath : String := "artifacts/magisk-module.zip"

/-- The effects of one loop iteration of `main` on a selected variant:
build, copy to the artifact store, sign; when the variant is the designated
`"app"` one, `build_magisk_module` first unlinks any existing archive and
then writes the new one. -/
def runVariant (v : Variant) : List Action :=
  [.gradleBuild v.variant v.flavor,
   .copyArtifact ("artifacts/" ++ v.output_file),
   .signArtifact ("artifacts/" ++ v.output_file) v.sign_keys]
    ++ (if v.variant = "app" then [.unlink modulePath, .writeModule modulePath] else [])

/-- The effect trace of `main`: clean, then each selected variant in
catalog order. -/
def mainTrace (variants : List Variant) (branch : List Char) : List Action :=
  .gradleClean :: (selectVariants variants branch).flatMap runVariant

/-- Scans a trace and checks that every module-archive write is preceded by
an unlink of the same path (`seen` collects the paths unlinked so far). -/
def unlinkedOK (seen : List String) : List Action → Bool
  | [] => true
  | .unlink p :: rest => unlinkedOK (p :: seen) rest
  | .writeModule p :: rest => seen.contains p && unlinkedOK seen rest
  | _ :: rest => unlinkedOK seen rest

theorem mem_matchRests_concat {r1 r2 : Regex} {s t : List Char} :
    t ∈ matchRests (.concat r1 r2) s ↔
      ∃ u, u ∈ matchRests r1 s ∧ t ∈ matchRests r2 u := by
  simp only [matchRests, matchRest, List.map_flatMap, List.mem_flatMap, List.map_map,
    List.mem_map]
  constructor
  · rintro ⟨t1, h1, t2, h2, ht⟩
    exact ⟨t1.val, ⟨t1, h1, rfl⟩, t2, h2, ht⟩
  · rintro ⟨u, ⟨t1, h1, rfl⟩, t2, h2, rfl⟩
    exact ⟨t1, h1, t2, h2, rfl⟩

theorem mem_matchRests_star {r : Regex} {s t : List Char} :
    t ∈ matchRests (.star r) s ↔
      t = s ∨ ∃ u, u ∈ matchRests r s ∧ u.length < s.length ∧ t ∈ matchRests (.star r) u := by
  rw [matchRests, matchRest]
  simp only [List.map_cons, List.mem_cons, List.map_flatMap, List.mem_flatMap, List.mem_map,
    List.map_map]
  constructor
  · rintro (rfl | ⟨t1, h1, t2, h2, ht⟩)
    · exact Or.inl rfl
    · right
      by_cases hlt : t1.val.length < s.length
      · rw [dif_pos hlt] at h2
        obtain ⟨t3, h3, rfl⟩ := List.mem_map.mp h2
        refine ⟨t1.val, List.mem_map_of_mem _ h1, hlt, ?_⟩
        rw [← ht]
        exact List.mem_map_of_mem _ h3
      · rw [dif_neg hlt] at h2
        simp at h2
  · rintro (rfl | ⟨u, hu, hlt, htm⟩)
    · exact Or.inl rfl
    · right
      obtain ⟨t1, h1, rfl⟩ := List.mem_map.mp hu
      obtain ⟨t3, h3, rfl⟩ := List.mem_map.mp htm
      refine ⟨t1, h1, ⟨t3, Nat.le_trans t3.property (Nat.le_of_lt hlt)⟩, ?_, rfl⟩
      rw [dif_pos hlt]
      exact List.mem_map_of_mem _ h3

theorem matchRest_sound (r : Regex) (s : List Char) :
    ∀ t ∈ matchRests r s, ∃ a, s = a ++ t ∧ MatchSplit r a t := by
  induction r, s using matchRest.induct with
  | case1 s =>
    intro t ht
    simp [matchRests, matchRest] at ht
    subst ht
    exact ⟨[], rfl, .emptystr _⟩
  | case2 c =>
    intro t ht
    simp [matchRests, matchRest] at ht
  | case3 c s =>
    intro t ht
    simp [matchRests, matchRest] at ht
    subst ht
    exact ⟨[c], rfl, .char c t⟩
  | case4 c a s h =>
    intro t ht
    simp [matchRests, matchRest, h] at ht
  | case5 =>
    intro t ht
    simp [matchRests, matchRest] at ht
  | case6 s =>
    intro t ht
    simp [matchRests, matchRest] at ht
  | case7 a s h =>
    intro t ht
    simp [matchRests, matchRest, h] at ht
    subst ht
    exact ⟨[a], rfl, .anychar a t h⟩
  | case8 neg cs =>
    intro t ht
    simp [matchRests, matchRest] at ht
  | case9 neg cs a s h =>
    intro t ht
    simp only [matchRests, matchRest] at ht
    rw [if_pos h] at ht
    simp at ht
    subst ht
    exact ⟨[a], rfl, .cls neg cs a t h⟩
  | case10 neg cs a s h =>
    intro t ht
    simp only [matchRests, matchRest] at ht
    rw [if_neg h] at ht
    simp at ht
  | case11 =>
    intro t ht
    simp [matchRests, matchRest] at ht
    subst ht
    exact ⟨[], rfl, .dollar⟩
  | case12 c s =>
    intro t ht
    simp [matchRests, matchRest] at ht
  | case13 r1 r2 s ih2 ih1 =>
    intro t ht
    obtain ⟨u, hu, htu⟩ := mem_matchRests_concat.mp ht
    obtain ⟨a1, hs1, hm1⟩ := ih2 u hu
    obtain ⟨a2, hs2, hm2⟩ := ih1 ⟨u, by rw [hs1]; simp⟩ t htu
    have hs2' : u = a2 ++ t := hs2
    refine ⟨a1 ++ a2, ?_, ?_⟩
    · rw [hs1, hs2', List.append_assoc]
    · rw [hs2'] at hm1
      exact .concat r1 r2 a1 a2 t hm1 hm2
  | case14 r1 r2 s ih2 ih1 =>
    intro t ht
    simp only [matchRests, matchRest, List.map_append, List.mem_append] at ht
    rcases ht with ht | ht
    · obtain ⟨a, hs, hm⟩ := ih2 t ht
      exact ⟨a, hs, .altl r1 r2 a t hm⟩
    · obtain ⟨a, hs, hm⟩ := ih1 t ht
      exact ⟨a, hs, .altr r1 r2 a t hm⟩
  | case15 r s ih2 ih1 =>
    intro t ht
    rcases mem_matchRests_star.mp ht with rfl | ⟨u, hu, hlt, htm⟩
    · exact ⟨[], rfl, .star_nil r t⟩
    · obtain ⟨a1, hs1, hm1⟩ := ih2 u hu
      obtain ⟨a2, hs2, hm2⟩ := ih1 ⟨u, Nat.le_of_lt hlt⟩ hlt t htm
      have hs2' : u = a2 ++ t := hs2
      refine ⟨a1 ++ a2, ?_, ?_⟩
      · rw [hs1, hs2', List.append_assoc]
      · rw [hs2'] at hm1
        exact .star_cons r a1 a2 t hm1 hm2

theorem matchRest_complete {r : Regex} {a b : List Char} (h : MatchSplit r a b) :
    b ∈ matchRests r (a ++ b) := by
  induction h with
  | emptystr rest =>
    rw [List.nil_append]
    simp [matchRests, matchRest]
  | char c rest =>
    rw [List.cons_append, List.nil_append]
    simp [matchRests, matchRest]
  | anychar c rest hc =>
    rw [List.cons_append, List.nil_append]
    simp [matchRests, matchRest, hc]
  | cls neg cs c rest hc =>
    rw [List.cons_append, List.nil_append]
    simp only [matchRests, matchRest]
    rw [if_pos hc]
    simp
  | dollar =>
    rw [List.nil_append]
    simp [matchRests, matchRest]
  | concat r1 r2 a b rest h1 h2 ih1 ih2 =>
    rw [List.append_assoc]
    exact mem_matchRests_concat.mpr ⟨b ++ rest, ih1, ih2⟩
  | altl r1 r2 a rest h1 ih =>
    simp only [matchRests, matchRest, List.map_append, List.mem_append]
    simp only [matchRests] at ih
    exact Or.inl ih
  | altr r1 r2 a rest h1 ih =>
    simp only [matchRests, matchRest, List.map_append, List.mem_append]
    simp only [matchRests] at ih
    exact Or.inr ih
  | star_nil r rest =>
    rw [List.nil_append]
    exact mem_matchRests_star.mpr (Or.inl rfl)
  | star_cons r a b rest h1 h2 ih1 ih2 =>
    rw [List.append_assoc]
    rcases eq_or_ne a [] with rfl | hne
    · rw [List.nil_append]
      exact ih2
    · apply mem_matchRests_star.mpr
      right
      refine ⟨b ++ rest, ih1, ?_, ih2⟩
      simp only [List.length_append]
      have := List.length_pos.mpr hne
      omega

theorem rmatch_iff {r : Regex} {s : List Char} :
    rmatch r s = true ↔ ∃ a b, s = a ++ b ∧ MatchSplit r a b := by
  constructor
  · intro h
    rw [rmatch] at h
    obtain ⟨t, ht⟩ : ∃ t, t ∈ matchRests r s := by
      rcases hl : matchRests r s with _ | ⟨x, xs⟩
      · rw [hl] at h
        simp [List.isEmpty] at h
      · exact ⟨x, by simp [hl]⟩
    obtain ⟨a, hs, hm⟩ := matchRest_sound r s t ht
    exact ⟨a, t, hs, hm⟩
  · rintro ⟨a, b, rfl, hm⟩
    have hb := matchRest_complete hm
    rw [rmatch]
    rcases hl : matchRests r (a ++ b) with _ | ⟨x, xs⟩
    · rw [hl] at hb
      simp at hb
    · simp [hl, List.isEmpty]

/-- C1: variant selection retains exactly those variants whose branch
pattern matches the branch starting at the beginning of the string (prefix
match, not full match), in catalog order (the selection is a sublist of the
catalog), and the selection is empty exactly when no variant matches. -/
theorem selectVariants_spec (variants : List Variant) (branch : List Char) :
    (selectVariants variants branch).Sublist variants
  ∧ (∀ v, v ∈ selectVariants variants branch ↔
        v ∈ variants ∧ PrefixMatch v.branch_pattern branch)
  ∧ (selectVariants variants branch = [] ↔
        ∀ v ∈ variants, ¬ PrefixMatch v.branch_pattern branch) := by
  refine ⟨List.filter_sublist _, fun v => ?_, ?_⟩
  · rw [selectVariants, List.mem_filter]
    exact and_congr_right (fun _ => rmatch_iff)
  · rw [selectVariants, List.filter_eq_nil_iff]
    constructor
    · intro h v hv hp
      exact h v hv (rmatch_iff.mpr hp)
    · intro h v hv hr
      exact h v hv (rmatch_iff.mp hr)

theorem strRegex_matches (k : List Char) (rest : List Char) :
    MatchSplit (strRegex k) k rest := by
  induction k with
  | nil => exact .emptystr rest
  | cons c cs ih =>
    have h := MatchSplit.concat (.char c) (strRegex cs) [c] cs rest (.char c (cs ++ rest)) (ih)
    exact h

theorem strRegex_inv (k : List Char) : ∀ a rest, MatchSplit (strRegex k) a rest → a = k := by
  induction k with
  | nil =>
    intro a rest h
    cases h
    rfl
  | cons c cs ih =>
    intro a rest h
    cases h with
    | concat _ _ a1 a2 _ h1 h2 =>
      cases h1
      rw [ih a2 rest h2]
      rfl

theorem star_anychar_matches (a rest : List Char) (h : ∀ c ∈ a, c ≠ '\n') :
    MatchSplit (.star .anychar) a rest := by
  induction a with
  | nil => exact .star_nil _ _
  | cons c cs ih =>
    have h1 : MatchSplit .anychar [c] (cs ++ rest) := .anychar c _ (h c (by simp))
    have h2 := ih (fun x hx => h x (by simp [hx]))
    exact MatchSplit.star_cons _ [c] cs rest h1 h2

/-- Spec example: pattern `release/.*` selects branch `release/v2`. -/
theorem branch_example_release :
    rmatch (.concat (strRegex "release/".data) (.star .anychar)) "release/v2".data = true := by
  apply rmatch_iff.mpr
  refine ⟨"release/v2".data, [], by simp, ?_⟩
  have h := MatchSplit.concat (strRegex "release/".data) (.star .anychar)
    "release/".data "v2".data [] (strRegex_matches _ _)
    (star_anychar_matches "v2".data [] (by decide))
  have he : "release/".data ++ "v2".data = "release/v2".data := by decide
  rw [he] at h
  exact h

/-- Spec example: pattern `^main$` does not select branch `release/v2`
(a leading caret is a no-op under `re.match`). -/
theorem branch_example_main_dollar :
    rmatch (.concat (strRegex "main".data) .dollar) "release/v2".data = false := by
  rw [Bool.eq_false_iff]
  intro h
  obtain ⟨a, b, hs, hm⟩ := rmatch_iff.mp h
  cases hm with
  | concat _ _ a1 a2 _ h1 h2 =>
    have ha1 := strRegex_inv _ _ _ h1
    cases h2
    subst ha1
    rw [List.append_nil, List.append_nil] at hs
    exact absurd hs (by decide)

/-- A pattern that matches only a proper prefix of the branch still
selects: pattern `main` matches branch `main-extra`. -/
theorem branch_example_proper_prefix_selects :
    rmatch (strRegex "main".data) "main-extra".data = true := by
  apply rmatch_iff.mpr
  exact ⟨"main".data, "-extra".data, by decide, strRegex_matches _ _⟩

theorem isPrefixOf_append (p b : List Char) : p.isPrefixOf (p ++ b) = true := by
  induction p with
  | nil => simp
  | cons c cs ih => simp [List.isPrefixOf, ih]

theorem isPrefixOf_append_of_le (p a b : List Char) (h : p.length ≤ a.length) :
    p.isPrefixOf (a ++ b) = p.isPrefixOf a := by
  induction p generalizing a with
  | nil => simp
  | cons c cs ih =>
    cases a with
    | nil => simp at h
    | cons x xs =>
      simp only [List.cons_append, List.isPrefixOf]
      rw [show xs.append b = xs ++ b from rfl, ih xs (by simpa using h)]

theorem isPrefixOf_iff_take (p l : List Char) :
    p.isPrefixOf l = true ↔ l.take p.length = p := by
  induction p generalizing l with
  | nil => simp [List.isPrefixOf]
  | cons c cs ih =>
    cases l with
    | nil => simp [List.isPrefixOf]
    | cons x xs =>
      simp only [List.isPrefixOf, List.length_cons, List.take_succ_cons, Bool.and_eq_true,
        beq_iff_eq, List.cons.injEq, ih]
      constructor
      · rintro ⟨rfl, h⟩
        exact ⟨rfl, h⟩
      · rintro ⟨rfl, h⟩
        exact ⟨rfl, h⟩

theorem not_isPrefixOf_of_take_ne (p a b : List Char) (k : Nat) (hka : k ≤ a.length)
    (hkp : k ≤ p.length) (h : a.take k ≠ p.take k) : p.isPrefixOf (a ++ b) = false := by
  rw [Bool.eq_false_iff]
  intro hp
  rw [isPrefixOf_iff_take] at hp
  apply h
  have h2 := congrArg (List.take k) hp
  rw [List.take_take, Nat.min_eq_left hkp, List.take_append_of_le_length hka] at h2
  exact h2

theorem append_ne_of_take_ne (a x b : String) (k : Nat) (hk : k ≤ a.data.length)
    (h : a.data.take k ≠ b.data.take k) : (a ++ x) ≠ b := by
  intro he
  apply h
  have h2 : (a ++ x).data.take k = b.data.take k := by rw [he]
  rw [String.data_append, List.take_append_of_le_length hk] at h2
  exact h2

theorem isKs_marker : ("--ks=".data.isPrefixOf "--next-signer".data) = false := by decide

theorem isKs_ks (x : String) : ("--ks=".data.isPrefixOf ("--ks=" ++ x).data) = true := by
  rw [String.data_append]
  exact isPrefixOf_append _ _

theorem isKs_pass (x : String) :
    ("--ks=".data.isPrefixOf ("--ks-pass=file:" ++ x).data) = false := by
  rw [String.data_append, isPrefixOf_append_of_le _ _ _ (by decide)]
  decide

theorem isKsPass_ks (x : String) :
    ("--ks-pass=".data.isPrefixOf ("--ks=" ++ x).data) = false := by
  rw [String.data_append]
  exact not_isPrefixOf_of_take_ne _ _ _ 5 (by decide) (by decide) (by decide)

theorem isKsPass_pass (x : String) :
    ("--ks-pass=".data.isPrefixOf ("--ks-pass=file:" ++ x).data) = true := by
  rw [String.data_append, isPrefixOf_append_of_le _ _ _ (by decide)]
  decide

theorem isKsPass_marker : ("--ks-pass=".data.isPrefixOf "--next-signer".data) = false := by
  decide

theorem ksArg_ne_marker (x : String) : ("--ks=" ++ x) ≠ "--next-signer" :=
  append_ne_of_take_ne _ _ _ 3 (by decide) (by decide)

theorem passArg_ne_marker (x : String) : ("--ks-pass=file:" ++ x) ≠ "--next-signer" :=
  append_ne_of_take_ne _ _ _ 3 (by decide) (by decide)

theorem build_args_keys_filter_ks (base : String) (keys : List String) :
    ∀ i, (build_args_keys base i keys).filter (fun s => "--ks=".data.isPrefixOf s.data)
      = keys.map (fun k => "--ks=" ++ (base ++ "/" ++ k)) := by
  induction keys with
  | nil => intro i; rfl
  | cons k ks ih =>
    intro i
    by_cases hi : i > 0 <;>
      simp [build_args_keys, hi, List.filter_cons, isKs_marker, isKs_ks, isKs_pass, ih (i + 1)]

theorem build_args_keys_filter_pass (base : String) (keys : List String) :
    ∀ i, (build_args_keys base i keys).filter (fun s => "--ks-pass=".data.isPrefixOf s.data)
      = keys.map (fun k => "--ks-pass=file:" ++ withSuffixTxt (base ++ "/" ++ k)) := by
  induction keys with
  | nil => intro i; rfl
  | cons k ks ih =>
    intro i
    by_cases hi : i > 0 <;>
      simp [build_args_keys, hi, List.filter_cons, isKsPass_marker, isKsPass_ks, isKsPass_pass,
        ih (i + 1)]

theorem build_args_keys_count_pos (base : String) (keys : List String) :
    ∀ i, 0 < i → (build_args_keys base i keys).count "--next-signer" = keys.length := by
  induction keys with
  | nil => intro i _; rfl
  | cons k ks ih =>
    intro i hi
    simp [build_args_keys, hi, List.count_cons, ksArg_ne_marker, passArg_ne_marker,
      ih (i + 1) (Nat.succ_pos i)]

theorem build_args_keys_count_zero (base : String) (keys : List String) :
    (build_args_keys base 0 keys).count "--next-signer" = keys.length - 1 := by
  cases keys with
  | nil => rfl
  | cons k ks =>
    simp [build_args_keys, List.count_cons, ksArg_ne_marker, passArg_ne_marker,
      build_args_keys_count_pos base ks 1 Nat.one_pos]

/-- C3: for a non-empty list of N signing identities the single signer
invocation starts with the fixed scheme flags (v1 and v2 enabled, v3 and v4
disabled), contains exactly N key-store references in input order, exactly
N-1 chain markers, and one password-file reference per identity whose path
is the key-store path with its extension replaced. -/
theorem build_args_spec (base : String) (keys : List String) (_hne : keys ≠ []) :
    (build_args base keys).take 4 =
      ["--v1-signing-enabled=true", "--v2-signing-enabled=true",
       "--v3-signing-enabled=false", "--v4-signing-enabled=false"]
  ∧ (build_args base keys).filter (fun s => "--ks=".data.isPrefixOf s.data)
      = keys.map (fun k => "--ks=" ++ (base ++ "/" ++ k))
  ∧ (build_args base keys).count "--next-signer" = keys.length - 1
  ∧ (build_args base keys).filter (fun s => "--ks-pass=".data.isPrefixOf s.data)
      = keys.map (fun k => "--ks-pass=file:" ++ withSuffixTxt (base ++ "/" ++ k)) := by
  refine ⟨?_, ?_, ?_, ?_⟩
  · rw [build_args, List.take_append_of_le_length (by decide)]
    rfl
  · rw [build_args]
    rw [List.filter_append]
    rw [show (["--v1-signing-enabled=true", "--v2-signing-enabled=true",
      "--v3-signing-enabled=false", "--v4-signing-enabled=false"].filter
        (fun s => "--ks=".data.isPrefixOf s.data)) = [] from by decide]
    rw [List.nil_append]
    exact build_args_keys_filter_ks base keys 0
  · rw [build_args, List.count_append]
    rw [show (["--v1-signing-enabled=true", "--v2-signing-enabled=true",
      "--v3-signing-enabled=false", "--v4-signing-enabled=false"].count "--next-signer") = 0
      from by decide]
    rw [Nat.zero_add]
    exact build_args_keys_count_zero base keys
  · rw [build_args, List.filter_append]
    rw [show (["--v1-signing-enabled=true", "--v2-signing-enabled=true",
      "--v3-signing-enabled=false", "--v4-signing-enabled=false"].filter
        (fun s => "--ks-pass=".data.isPrefixOf s.data)) = [] from by decide]
    rw [List.nil_append]
    exact build_args_keys_filter_pass base keys 0

/-- Witness: two signing identities produce exactly one chain marker. -/
theorem build_args_spec_witness :
    (build_args "keystore" ["platform.jks", "release.jks"]).count "--next-signer" = 1 :=
  (build_args_spec "keystore" ["platform.jks", "release.jks"] (by decide)).2.2.1

/-- C7: the build output artifact is located by the dash-joined filename
convention (flavor segment only when a flavor is set, `unsigned` suffix
only in release mode); when no file matches the convention, the locator
returns `none` rather than raising an artifact-not-found error. -/
theorem get_output_path_contract :
    (∀ app fl, get_output_filename app (some fl) false = app ++ "-" ++ fl ++ "-" ++ "debug")
  ∧ (∀ app, get_output_filename app none false = app ++ "-" ++ "debug")
  ∧ (∀ app fl, get_output_filename app (some fl) true
        = app ++ "-" ++ fl ++ "-" ++ "release" ++ "-" ++ "unsigned")
  ∧ (∀ app, get_output_filename app none true = app ++ "-" ++ "release" ++ "-" ++ "unsigned")
  ∧ (∀ app fl rel, get_output_path
        [get_output_filename app fl rel ++ ".apk"] app fl rel
        = some (get_output_filename app fl rel ++ ".apk"))
  ∧ (∀ app fl rel, get_output_path [] app fl rel = none) := by
  refine ⟨?_, ?_, ?_, ?_, ?_, ?_⟩
  · intro app fl
    simp [get_output_filename, pyJoin, buildTypeName, String.append_assoc]
  · intro app
    simp [get_output_filename, pyJoin, buildTypeName, String.append_assoc]
  · intro app fl
    simp [get_output_filename, pyJoin, buildTypeName, String.append_assoc]
  · intro app
    simp [get_output_filename, pyJoin, buildTypeName, String.append_assoc]
  · intro app fl rel
    simp [get_output_path, List.find?]
  · intro app fl rel
    rfl

/-- C8 (amended): after signing succeeds, the certificate verification
pass runs through `check_call`, so a nonzero verification exit raises and
aborts the run (is fatal); a zero exit yields success. -/
theorem androidSignerCall_verify_fatal (verifyExit : Int) (h : verifyExit ≠ 0) :
    androidSignerCall 0 verifyExit = .error (.verifyFailed verifyExit)
  ∧ androidSignerCall 0 0 = .ok () := by
  constructor
  · simp [androidSignerCall, check_call, h]
  · rfl

theorem androidSignerCall_verify_fatal_witness :
    androidSignerCall 0 1 = .error (.verifyFailed 1) :=
  (androidSignerCall_verify_fatal 1 (by decide)).1

/-- Counterexample to the claim that a verification failure is non-fatal:
with a successful sign step and a verification step exiting 1, the signer
call does not return success. -/
theorem androidSignerCall_verify_not_ok :
    androidSignerCall 0 1 ≠ .ok () := by
  simp [androidSignerCall, check_call]

/-- C9: the probe extracts package name, version name and version code from
the metadata dump; whenever it succeeds all three searches succeeded, a
failure of any single search makes the whole probe fail with no partial
result, and on success the extraction is exactly the three captured groups
with the version code converted to an integer. -/
theorem get_version_info_spec (output : List Char) :
    ((get_version_info output).isSome →
        (searchKey nameKey output).isSome ∧ (searchKey versionNameKey output).isSome
          ∧ (searchKey versionCodeKey output).isSome)
  ∧ (∀ key ∈ [nameKey, versionNameKey, versionCodeKey],
        searchKey key output = none → get_version_info output = none)
  ∧ (∀ pn vn vc, searchKey nameKey output = some pn →
        searchKey versionNameKey output = some vn →
        searchKey versionCodeKey output = some vc →
        get_version_info output
          = (parseInt vc).map (fun n => ⟨n, String.mk vn, String.mk pn⟩)) := by
  refine ⟨?_, ?_, ?_⟩
  · intro h
    rw [get_version_info] at h
    rcases h1 : searchKey nameKey output with _ | pn <;> rw [h1] at h
    · simp at h
    · rcases h2 : searchKey versionNameKey output with _ | vn <;> rw [h2] at h
      · simp at h
      · rcases h3 : searchKey versionCodeKey output with _ | vc <;> rw [h3] at h
        · simp at h
        · simp
  · intro key hkey hnone
    simp only [List.mem_cons, List.not_mem_nil, or_false] at hkey
    rw [get_version_info]
    rcases hkey with rfl | rfl | rfl
    · rw [hnone]
    · rw [hnone]
      rcases searchKey nameKey output with _ | pn <;> rfl
    · rw [hnone]
      rcases searchKey nameKey output with _ | pn <;>
        rcases searchKey versionNameKey output with _ | vn <;> rfl
  · intro pn vn vc h1 h2 h3
    rw [get_version_info, h1, h2, h3]

theorem get_version_info_spec_witness :
    get_version_info demoDump = some ⟨123, "1.0", "im.angry.openeuicc"⟩ := by
  have h := (get_version_info_spec demoDump).2.2 "im.angry.openeuicc".data "1.0".data
    "123".data (by decide) (by decide) (by decide)
  rw [h]
  decide

theorem digitChar_ne_newline (n : Nat) (h : n < 10) : digitChar n ≠ '\n' := by
  interval_cases n <;> decide

theorem natDigitsCore_no_newline (fuel : Nat) :
    ∀ n acc, '\n' ∉ acc → '\n' ∉ natDigitsCore fuel n acc := by
  induction fuel with
  | zero => intro n acc h; exact h
  | succ fuel ih =>
    intro n acc h
    rw [natDigitsCore]
    by_cases hn : n < 10
    · rw [if_pos hn]
      intro hmem
      rcases List.mem_cons.mp hmem with heq | hmem2
      · exact digitChar_ne_newline n hn heq.symm
      · exact h hmem2
    · rw [if_neg hn]
      apply ih
      intro hmem
      rcases List.mem_cons.mp hmem with heq | hmem2
      · exact digitChar_ne_newline (n % 10) (Nat.mod_lt n (by omega)) heq.symm
      · exact h hmem2

theorem natStr_no_newline (n : Nat) : '\n' ∉ (natStr n).data :=
  natDigitsCore_no_newline (n + 1) n [] (by simp)

theorem intStr_no_newline (i : Int) : '\n' ∉ (intStr i).data := by
  rw [intStr]
  by_cases h : i < 0
  · rw [if_pos h, String.data_append]
    intro hmem
    rcases List.mem_append.mp hmem with h1 | h2
    · simp at h1
    · exact natStr_no_newline _ h2
  · rw [if_neg h]
    exact natStr_no_newline _

theorem linesOf_append_no_newline (a b : List Char) (h : '\n' ∉ a) :
    linesOf (a ++ '\n' :: b) = a :: linesOf b := by
  induction a with
  | nil => simp [linesOf]
  | cons c cs ih =>
    have hc : c ≠ '\n' := fun hc => h (by simp [hc])
    have h2 : '\n' ∉ cs := fun hm => h (List.mem_cons_of_mem _ hm)
    rw [List.cons_append, linesOf, ih h2]
    exact fun hcc => hc hcc

theorem newline_data : "\n".data = ['\n'] := by decide

theorem linesOf_flatMap (ls : List (List Char)) (h : ∀ l ∈ ls, '\n' ∉ l) :
    linesOf (ls.flatMap (fun l => l ++ ['\n'])) = ls ++ [[]] := by
  induction ls with
  | nil => rfl
  | cons x xs ih =>
    rw [List.flatMap_cons, List.append_assoc, List.singleton_append,
      linesOf_append_no_newline x _ (h x (List.mem_cons_self x xs)),
      ih (fun l hl => h l (List.mem_cons_of_mem x hl)), List.cons_append]

theorem count_newline_flatMap (ls : List (List Char)) (h : ∀ l ∈ ls, '\n' ∉ l) :
    (ls.flatMap (fun l => l ++ ['\n'])).count '\n' = ls.length := by
  induction ls with
  | nil => rfl
  | cons x xs ih =>
    rw [List.flatMap_cons, List.count_append, List.count_append,
      List.count_eq_zero.mpr (h x (List.mem_cons_self x xs)),
      ih (fun l hl => h l (List.mem_cons_of_mem x hl))]
    simp [List.length_cons]
    omega

theorem getLast_newline_flatMap (ls : List (List Char)) (hne : ls ≠ []) :
    (ls.flatMap (fun l => l ++ ['\n'])).getLast? = some '\n' := by
  induction ls with
  | nil => exact absurd rfl hne
  | cons x xs ih =>
    cases xs with
    | nil => simp
    | cons y ys =>
      rw [List.flatMap_cons, List.getLast?_append, ih (by simp)]
      rfl

theorem takeWhile_append_of_stop (p : Char → Bool) (a b : List Char)
    (h : (a.takeWhile p).length < a.length) : (a ++ b).takeWhile p = a.takeWhile p := by
  induction a with
  | nil => simp at h
  | cons c cs ih =>
    cases hp : p c with
    | true =>
      rw [List.cons_append, List.takeWhile_cons_of_pos hp, List.takeWhile_cons_of_pos hp,
        ih (by rw [List.takeWhile_cons_of_pos hp] at h; simpa using h)]
    | false =>
      rw [List.cons_append, List.takeWhile_cons_of_neg (by simp [hp]),
        List.takeWhile_cons_of_neg (by simp [hp])]

theorem empty_data : "".data = [] := rfl

theorem build_module_prop_data (vi : VersionInfo) :
    (build_module_prop vi).data
      = ((modulePropPairs vi).map (fun p => (p.1 ++ "=" ++ p.2).data)).flatMap
          (fun l => l ++ ['\n']) := by
  simp only [build_module_prop, modulePropPairs, List.map_cons, List.map_nil, concatAll,
    List.flatMap_cons, List.flatMap_nil, String.data_append, newline_data, empty_data,
    List.append_nil, List.append_assoc]

theorem modulePropPairs_lines (vi : VersionInfo) :
    (modulePropPairs vi).map (fun p => (p.1 ++ "=" ++ p.2).data) = modulePropLinesData vi := by
  simp only [modulePropPairs, modulePropLinesData, List.map_cons, List.map_nil]
  refine List.cons_eq_cons.mpr ⟨by decide, ?_⟩
  refine List.cons_eq_cons.mpr ⟨by decide, ?_⟩
  refine List.cons_eq_cons.mpr ⟨?_, ?_⟩
  · rw [String.data_append, show ("version" ++ "=").data = "version=".data from by decide]
  refine List.cons_eq_cons.mpr ⟨?_, ?_⟩
  · rw [String.data_append, show ("versionCode" ++ "=").data = "versionCode=".data from by decide]
  refine List.cons_eq_cons.mpr ⟨by decide, ?_⟩
  refine List.cons_eq_cons.mpr ⟨?_, rfl⟩
  rw [String.data_append, show ("description" ++ "=").data = "description=".data from by decide]

theorem modulePropLinesData_no_newline (vi : VersionInfo) (h : '\n' ∉ vi.version_name.data) :
    ∀ l ∈ modulePropLinesData vi, '\n' ∉ l := by
  intro l hl
  simp only [modulePropLinesData, List.mem_cons, List.not_mem_nil, or_false] at hl
  rcases hl with rfl | rfl | rfl | rfl | rfl | rfl
  · decide
  · decide
  · intro hmem
    rcases List.mem_append.mp hmem with h1 | h2
    · exact absurd h1 (by decide)
    · exact h h2
  · intro hmem
    rcases List.mem_append.mp hmem with h1 | h2
    · exact absurd h1 (by decide)
    · exact intStr_no_newline _ h2
  · decide
  · intro hmem
    rcases List.mem_append.mp hmem with h1 | h2
    · exact absurd h1 (by decide)
    · exact absurd h2 (by decide)

theorem build_module_prop_lines (vi : VersionInfo) (h : '\n' ∉ vi.version_name.data) :
    linesOf (build_module_prop vi).data = modulePropLinesData vi ++ [[]] := by
  rw [build_module_prop_data, modulePropPairs_lines,
    linesOf_flatMap _ (modulePropLinesData_no_newline vi h)]

/-- C6 (amended): for every `VersionInfo` whose version name contains no
newline, the generated `module.prop` consists of exactly the six lines for
the keys id, name, version, versionCode, author and description, with no
blank line; version and versionCode are copied from the `VersionInfo`, the
other values are fixed. -/
theorem build_module_prop_keys (vi : VersionInfo) (h : '\n' ∉ vi.version_name.data) :
    (linesOf (build_module_prop vi).data).dropLast = modulePropLinesData vi
  ∧ ((linesOf (build_module_prop vi).data).dropLast).map
        (fun l => l.takeWhile (fun c => c != '='))
      = ["id".data, "name".data, "version".data, "versionCode".data,
         "author".data, "description".data]
  ∧ (∀ l ∈ (linesOf (build_module_prop vi).data).dropLast, l ≠ []) := by
  have hd : (linesOf (build_module_prop vi).data).dropLast = modulePropLinesData vi := by
    rw [build_module_prop_lines vi h, List.dropLast_concat]
  refine ⟨hd, ?_, ?_⟩
  · rw [hd]
    simp only [modulePropLinesData, List.map_cons, List.map_nil]
    refine List.cons_eq_cons.mpr ⟨by decide, ?_⟩
    refine List.cons_eq_cons.mpr ⟨by decide, ?_⟩
    refine List.cons_eq_cons.mpr ⟨?_, ?_⟩
    · rw [takeWhile_append_of_stop _ _ _ (by decide)]
      decide
    refine List.cons_eq_cons.mpr ⟨?_, ?_⟩
    · rw [takeWhile_append_of_stop _ _ _ (by decide)]
      decide
    refine List.cons_eq_cons.mpr ⟨by decide, ?_⟩
    refine List.cons_eq_cons.mpr ⟨?_, rfl⟩
    rw [takeWhile_append_of_stop _ _ _ (by decide)]
    decide
  · rw [hd]
    intro l hl
    simp only [modulePropLinesData, List.mem_cons, List.not_mem_nil, or_false] at hl
    rcases hl with rfl | rfl | rfl | rfl | rfl | rfl
    · decide
    · decide
    · intro he
      rcases List.append_eq_nil.mp he with ⟨h1, _⟩
      exact absurd h1 (by decide)
    · intro he
      rcases List.append_eq_nil.mp he with ⟨h1, _⟩
      exact absurd h1 (by decide)
    · decide
    · intro he
      rcases List.append_eq_nil.mp he with ⟨h1, _⟩
      exact absurd h1 (by decide)

theorem build_module_prop_keys_witness :
    ((linesOf (build_module_prop ⟨123, "1.0.0", "im.angry.openeuicc"⟩).data).dropLast).map
        (fun l => l.takeWhile (fun c => c != '='))
      = ["id".data, "name".data, "version".data, "versionCode".data,
         "author".data, "description".data] :=
  (build_module_prop_keys ⟨123, "1.0.0", "im.angry.openeuicc"⟩ (by decide)).2.1

set_option maxRecDepth 4096 in
/-- Counterexample input: a version name containing newlines makes the
rendered `module.prop` contain a blank line. -/
theorem build_module_prop_blank_line :
    [] ∈ (linesOf (build_module_prop ⟨1, "1.0\n\nx", "p"⟩).data).dropLast := by
  decide

/-- C10 (amended): for every `VersionInfo` whose version name contains no
newline, `module.prop` emits its keys in the order id, name, version,
versionCode, author, description; the content is exactly six
newline-terminated lines, ends with a newline, and the description is
joined into a single line. -/
theorem build_module_prop_line_order (vi : VersionInfo) (h : '\n' ∉ vi.version_name.data) :
    linesOf (build_module_prop vi).data = modulePropLinesData vi ++ [[]]
  ∧ (build_module_prop vi).data.count '\n' = 6
  ∧ (build_module_prop vi).data.getLast? = some '\n'
  ∧ '\n' ∉ moduleDescription.data := by
  refine ⟨build_module_prop_lines vi h, ?_, ?_, by decide⟩
  · rw [build_module_prop_data, modulePropPairs_lines,
      count_newline_flatMap _ (modulePropLinesData_no_newline vi h)]
    rfl
  · rw [build_module_prop_data, modulePropPairs_lines]
    exact getLast_newline_flatMap _ (by simp [modulePropLinesData])

theorem build_module_prop_line_order_witness :
    (build_module_prop ⟨7, "2.1", "pkg.example"⟩).data.count '\n' = 6 :=
  (build_module_prop_line_order ⟨7, "2.1", "pkg.example"⟩ (by decide)).2.1

set_option maxRecDepth 4096 in
/-- Counterexample input: a version name containing a newline makes the
rendered `module.prop` consist of seven newline-terminated lines, not
six. -/
theorem build_module_prop_seven_newlines :
    (build_module_prop ⟨2, "2.0\nx", "q"⟩).data.count '\n' = 7 := by
  decide

theorem ne_append2_of_take_ne (aconst x y b : String) (k : Nat) (hk : k ≤ aconst.data.length)
    (h : aconst.data.take k ≠ b.data.take k) : (aconst ++ x ++ y) ≠ b := by
  intro he
  apply h
  have h2 : (aconst ++ x ++ y).data.take k = b.data.take k := by rw [he]
  rw [String.data_append, String.data_append, List.append_assoc,
    List.take_append_of_le_length hk] at h2
  exact h2

/-- C2: the module archive contains the update-binary entry holding the
fetched installer bytes compressed, the updater-script entry holding the
literal marker stored uncompressed, the signed binary stored uncompressed
at the priv-app path, and the permissions manifest compressed at the
whitelist path with the package name substituted; the archive paths are
pairwise distinct. -/
theorem build_magisk_module_layout (now : Nat) (installer apk whitelist : List Nat)
    (tmpl : String) (vi : VersionInfo) :
    (⟨"META-INF/com/google/android/update-binary", .binary installer, .deflated, now⟩ : ZipEntry)
        ∈ build_magisk_module now installer apk whitelist tmpl vi
  ∧ (⟨"META-INF/com/google/android/updater-script", .text "#MAGISK\n", .stored, now⟩ : ZipEntry)
        ∈ build_magisk_module now installer apk whitelist tmpl vi
  ∧ (⟨"system/system_ext/priv-app/OpenEUICC/OpenEUICC.apk", .binary apk, .stored, now⟩ : ZipEntry)
        ∈ build_magisk_module now installer apk whitelist tmpl vi
  ∧ (⟨"system/system_ext/etc/permissions/privapp_whitelist_" ++ vi.package_name ++ ".xml",
        .binary whitelist, .deflated, now⟩ : ZipEntry)
        ∈ build_magisk_module now installer apk whitelist tmpl vi
  ∧ ((build_magisk_module now installer apk whitelist tmpl vi).map ZipEntry.path).Nodup := by
  refine ⟨?_, ?_, ?_, ?_, ?_⟩
  · simp [build_magisk_module]
  · simp [build_magisk_module]
  · simp [build_magisk_module, appPath]
  · simp [build_magisk_module, permsPath]
  · simp [build_magisk_module, appPath, permsPath, List.nodup_cons]
    exact ⟨fun he => ne_append2_of_take_ne _ _ _ _ 1 (by decide) (by decide) he.symm,
           fun he => ne_append2_of_take_ne _ _ _ _ 1 (by decide) (by decide) he.symm,
           fun he => ne_append2_of_take_ne _ _ _ _ 19 (by decide) (by decide) he.symm,
           ne_append2_of_take_ne _ _ _ _ 1 (by decide) (by decide),
           ne_append2_of_take_ne _ _ _ _ 1 (by decide) (by decide),
           ne_append2_of_take_ne _ _ _ _ 1 (by decide) (by decide)⟩

/-- C5 (amended): module archive construction is deterministic in content:
two runs over identical inputs produce archives with identical entry paths,
entry data and compression modes in identical order; the entry timestamps
equal the wall-clock time of the respective run, so byte-for-byte identity
additionally requires the two runs to observe the same time. -/
theorem build_magisk_module_content_deterministic (t1 t2 : Nat)
    (installer apk whitelist : List Nat) (tmpl : String) (vi : VersionInfo) :
    (build_magisk_module t1 installer apk whitelist tmpl vi).map entryContent
      = (build_magisk_module t2 installer apk whitelist tmpl vi).map entryContent
  ∧ (build_magisk_module t1 installer apk whitelist tmpl vi).map ZipEntry.dt
      = List.replicate 7 t1 := by
  constructor <;> rfl

/-- Counterexample input: two builds over identical inputs at different
wall-clock times produce different archives, because `writestr` stamps the
current local time on every entry. -/
theorem build_magisk_module_timestamp_dependent :
    build_magisk_module 0 [] [] [] "" ⟨1, "1.0", "pkg"⟩
      ≠ build_magisk_module 1 [] [] [] "" ⟨1, "1.0", "pkg"⟩ := by
  intro he
  have h2 := congrArg (List.map ZipEntry.dt) he
  simp [build_magisk_module] at h2

theorem writeModule_mem_runVariant (v : Variant) (p : String) :
    Action.writeModule p ∈ runVariant v ↔ (p = modulePath ∧ v.variant = "app") := by
  by_cases h : v.variant = "app" <;> simp [runVariant, h, eq_comm]

theorem unlinkedOK_flatMap (l : List Variant) :
    ∀ seen, unlinkedOK seen (l.flatMap runVariant) = true := by
  induction l with
  | nil => intro seen; rfl
  | cons v vs ih =>
    intro seen
    rw [List.flatMap_cons]
    by_cases h : v.variant = "app" <;>
      simp [runVariant, h, unlinkedOK, ih]

/-- C4: a module archive write appears in the effect trace of `main` iff a
selected variant has the designated identifier `app`, the write goes to
`artifacts/magisk-module.zip` and nowhere else, and every write is preceded
by an unlink of the same destination. -/
theorem mainTrace_module_archive (variants : List Variant) (branch : List Char) :
    (∀ p, Action.writeModule p ∈ mainTrace variants branch ↔
        (p = modulePath ∧ ∃ v ∈ selectVariants variants branch, v.variant = "app"))
  ∧ unlinkedOK [] (mainTrace variants branch) = true := by
  constructor
  · intro p
    rw [mainTrace]
    simp only [List.mem_cons, List.mem_flatMap]
    constructor
    · rintro (h | ⟨v, hv, hw⟩)
      · exact absurd h (by simp)
      · obtain ⟨hp, happ⟩ := (writeModule_mem_runVariant v p).mp hw
        exact ⟨hp, v, hv, happ⟩
    · rintro ⟨hp, v, hv, happ⟩
      exact Or.inr ⟨v, hv, (writeModule_mem_runVariant v p).mpr ⟨hp, happ⟩⟩
  · have hstep : ∀ l, unlinkedOK [] (Action.gradleClean :: l) = unlinkedOK [] l :=
      fun l => rfl
    rw [mainTrace, hstep]
    exact unlinkedOK_flatMap _ []

end MagiskBuild
